import Mathlib

/-!
Verification of the chunk-extraction and review-orchestration pipeline of
the `ollama_review` repository (`src/cmd/review.go`), as a shallow embedding.

Modelling conventions:
* A parsed syntax tree is represented by `STree`; its `children` list holds
  the *named* children only, because the Go traversal in `extractFunctions`
  iterates `NamedChild(0)` / `NextNamedSibling()` and never touches
  unnamed nodes.
* Source bytes are modelled as `List Char`; byte offsets become positions
  in that list.  `chunkOf` mirrors the Go slice `src[n.StartByte():n.EndByte()]`.
* External collaborators (tree-sitter parser, template file reads, the
  Ollama chat client, the final report write) are oracles carried in
  `RunEnv` / `SrcFile`, one result per call site, matching the interfaces
  in the specification.
-/

/-- A concrete syntax tree node: node type, start byte, end byte, and the
ordered list of *named* children (the only ones the Go code traverses). -/
inductive STree where
  | node (typ : String) (startB : Nat) (endB : Nat) (children : List STree)

def STree.typ : STree → String
  | .node t _ _ _ => t

def STree.startB : STree → Nat
  | .node _ s _ _ => s

def STree.endB : STree → Nat
  | .node _ _ e _ => e

def STree.children : STree → List STree
  | .node _ _ _ cs => cs

mutual
/-- The recursive closure `walk` inside `extractFunctions`
(src/cmd/review.go): depth-first pre-order; a node whose type equals
`nodeType` contributes its span, and traversal always continues into the
named children. Returns the list of matched spans in visit order. -/
def walkNode (nt : String) : STree → List (Nat × Nat)
  | .node t s e cs =>
    (if t = nt then [(s, e)] else []) ++ walkKids nt cs

/-- The loop `for c := n.NamedChild(0); c != nil; c = c.NextNamedSibling()`
inside the walk closure, visiting named children left to right. -/
def walkKids (nt : String) : List STree → List (Nat × Nat)
  | [] => []
  | c :: cs => walkNode nt c ++ walkKids nt cs
end

/-- The Go slice `src[start:end]` used to cut a chunk out of the source. -/
def chunkOf (src : List Char) (p : Nat × Nat) : List Char :=
  (src.drop p.1).take (p.2 - p.1)

/-- `extractFunctions` (src/cmd/review.go:60): parses the source (the parse
result of the external tree-sitter parser is passed in as an oracle) and
returns each matched node's byte span cut from `src`; a parse failure is
wrapped as in `fmt.Errorf("parse source: %w", err)`. -/
def extractFunctions (src : List Char) (parseRes : Except String STree)
    (nodeType : String) : Except String (List (List Char)) :=
  match parseRes with
  | .error e => .error ("parse source: " ++ e)
  | .ok tree => .ok ((walkNode nodeType tree).map (chunkOf src))

/-- Adjacent named siblings are ordered: each ends no later than the next
starts (tree-sitter trees satisfy this). -/
def sibOk : List STree → Bool
  | [] => true
  | [_] => true
  | a :: b :: r => decide (a.endB ≤ b.startB) && sibOk (b :: r)

mutual
/-- Well-formedness of a syntax tree: spans are proper (`start ≤ end`),
children spans are nested inside the parent span, and siblings are ordered
left to right.  These are structural facts of tree-sitter parse trees. -/
def wfTree : STree → Bool
  | .node _ s e cs =>
    decide (s ≤ e)
      && cs.all (fun c => decide (s ≤ c.startB) && decide (c.endB ≤ e))
      && sibOk cs
      && wfList cs

def wfList : List STree → Bool
  | [] => true
  | c :: cs => wfTree c && wfList cs
end

/-- `Desc d a` : `d` is a strict descendant of `a`. -/
inductive Desc : STree → STree → Prop where
  | child {t s e cs c} : c ∈ cs → Desc c (.node t s e cs)
  | step {t s e cs c d} : c ∈ cs → Desc d c → Desc d (.node t s e cs)

/-! ## Guideline template (`text/template` as used by `buildPrompt`) -/

/-- The open-brace character, written by code point to keep braces out of
string literals. -/
def lbrace : Char := Char.ofNat 123

/-- The close-brace character. -/
def rbrace : Char := Char.ofNat 125

/-- One parsed template token: a literal run, or a field action that
substitutes a named datum. -/
inductive Tok where
  | lit (s : List Char)
  | fld (name : List Char)
deriving Repr, DecidableEq

/-- Split off the literal run before the next open action (two open
braces); the remainder, when nonempty, starts at the action opener. -/
def takeLit : List Char → List Char × List Char
  | [] => ([], [])
  | c :: rest =>
    if c = lbrace ∧ rest.head? = some lbrace then ([], c :: rest)
    else
      let p := takeLit rest
      (c :: p.1, p.2)

/-- Read a field name up to the closing pair of braces; `none` when the
action is never closed. -/
def takeName : List Char → Option (List Char × List Char)
  | [] => none
  | c :: rest =>
    if c = rbrace ∧ rest.head? = some rbrace then some ([], rest.drop 1)
    else
      match takeName rest with
      | none => none
      | some p => some (c :: p.1, p.2)

/-- Tokenise a template source (the subset of `text/template` the
guideline file uses: literals and dotted field actions); malformed
actions are parse errors, as in `template.ParseFiles`. -/
def parseToks : Nat → List Char → Except String (List Tok)
  | 0, _ => .error "template: nesting budget exhausted"
  | fuel + 1, cs =>
    match takeLit cs with
    | (l, []) => .ok (if l.isEmpty then [] else [.lit l])
    | (l, rest) =>
      match rest.drop 2 with
      | '.' :: rest2 =>
        match takeName rest2 with
        | none => .error "template: unclosed action"
        | some p =>
          match parseToks fuel p.2 with
          | .error e => .error e
          | .ok ts => .ok ((if l.isEmpty then [] else [.lit l]) ++ Tok.fld p.1 :: ts)
      | _ => .error "template: bad action"

/-- Parse a whole template source. -/
def parseTmpl (cs : List Char) : Except String (List Tok) :=
  parseToks (cs.length + 1) cs

/-- Execute one token against the data map built in `buildPrompt`
(`data := map[string]string{"lang": ..., "code": ...}`): only the two
fields `lang` and `code` substitute data; any other field renders the
`text/template` zero value for a missing map key. -/
def execTok (langTag code : List Char) : Tok → List Char
  | .lit s => s
  | .fld n =>
    if n = "lang".toList then langTag
    else if n = "code".toList then code
    else "<no value>".toList

/-- Execute a token list: concatenation of the rendered tokens. -/
def execTmpl (toks : List Tok) (langTag code : List Char) : List Char :=
  (toks.map (execTok langTag code)).join

/-- `buildPrompt` (src/cmd/review.go:85): loads and parses the guideline
template (the file read is an oracle, one per call, since the Go code
calls `template.ParseFiles` afresh on every invocation) and substitutes
the language tag and the chunk text. Load and parse failures are wrapped
as `parse template: ...`. -/
def buildPrompt (tmplRead : Except String (List Char)) (langTag : String)
    (code : List Char) : Except String (List Char) :=
  match tmplRead with
  | .error e => .error ("parse template: " ++ e)
  | .ok tsrc =>
    match parseTmpl tsrc with
    | .error e => .error ("parse template: " ++ e)
    | .ok toks => .ok (execTmpl toks langTag.toList code)

/-! ## Chat dispatch -/

/-- Result of one `client.Chat` call: either the ordered fragments of a
completed stream, or a failure after some received fragments. -/
inductive ChatOutcome where
  | done (frags : List (List Char))
  | fail (received : List (List Char)) (msg : String)

/-- Whether the outcome is a failure. -/
def ChatOutcome.isFail : ChatOutcome → Bool
  | .done _ => false
  | .fail _ _ => true

/-- `reviewChunk` (src/cmd/review.go:105): builds the prompt, performs one
chat call accumulating the fragments in arrival order (`outBuf`), and on a
chat error returns the error with no text — the accumulated fragments are
dropped. No retry happens anywhere. -/
def reviewChunk (tmplRead : Except String (List Char))
    (chatCall : List Char → ChatOutcome) (langTag : String)
    (code : List Char) : Except String (List Char) :=
  match buildPrompt tmplRead langTag code with
  | .error e => .error e
  | .ok prompt =>
    match chatCall prompt with
    | .done frags => .ok frags.join
    | .fail _ m => .error m

/-! ## Per-file review loop and report sections -/

/-- The collaborators and configuration a run consumes, one oracle entry
per call site: `tmplRead p i` is the guideline file read performed while
processing chunk `i` of file `p` (fresh per chunk), `chat p i` the chat
call for that chunk, `hostParse` the result of `url.Parse` on the
configured endpoint, `writeRes` the result of the final report write. -/
structure RunEnv where
  excl : List String
  hostParse : Except String Unit
  tmplRead : String → Nat → Except String (List Char)
  chat : String → Nat → List Char → ChatOutcome
  writeRes : Except String Unit

/-- One report section: file path, 1-based chunk index, chunk count of the
file, and the rendered review text. -/
structure ReportSection where
  path : String
  idx : Nat
  total : Nat
  body : List Char
deriving Repr, DecidableEq

/-- The string built by
`fmt.Sprintf("## %s (chunk %d/%d)\n\n%s\n\n---\n", path, i+1, len(chunks), res)`. -/
def renderSection (s : ReportSection) : List Char :=
  ("## " ++ s.path ++ " (chunk " ++ toString s.idx ++ "/" ++ toString s.total
      ++ ")\n\n").toList
    ++ s.body ++ "\n\n---\n".toList

/-- The chunk loop `for i, chunk := range chunks` of `Review`, started at
loop counter `i`: a successful review appends a section labelled
`(i+1)/total`; a failed review logs and continues with the next chunk. -/
def sectionsFrom (env : RunEnv) (path langTag : String) (total : Nat) :
    Nat → List (List Char) → List ReportSection
  | _, [] => []
  | i, ch :: rest =>
    match reviewChunk (env.tmplRead path i) (env.chat path i) langTag ch with
    | .ok res => ⟨path, i + 1, total, res⟩ :: sectionsFrom env path langTag total (i + 1) rest
    | .error _ => sectionsFrom env path langTag total (i + 1) rest

/-- All sections one file contributes: the chunk loop over the whole chunk
list, with `total = len(chunks)` and the counter starting at `0`. -/
def fileSections (env : RunEnv) (path langTag : String)
    (chunks : List (List Char)) : List ReportSection :=
  sectionsFrom env path langTag chunks.length 0 chunks

/-! ## Directory walk and report assembly -/

/-- `filepath.Ext`: the suffix beginning at the final dot of the final
path element; empty when that element has no dot. -/
def extRev : List Char → List Char → Option (List Char)
  | [], _ => none
  | c :: rest, acc =>
    if c = '/' then none
    else if c = '.' then some ('.' :: acc)
    else extRev rest (c :: acc)

/-- `filepath.Ext(path)` over the model path string. -/
def fileExt (p : String) : String :=
  match extRev p.toList.reverse [] with
  | none => ""
  | some l => String.mk l

/-- `strings.TrimPrefix(ext, ".")` as applied to the extension. -/
def trimDot (s : String) : String :=
  if s.toList.head? = some '.' then String.mk s.toList.tail else s

/-- The `langConfig` table (src/cmd/review.go:47): extension to grammar
identifier and function node type. The grammar value itself lives in the
external parser; only the node type drives the extraction. -/
def langConfig : String → Option (String × String)
  | ".py" => some ("python", "function_definition")
  | ".java" => some ("java", "method_declaration")
  | ".cpp" => some ("cpp", "function_definition")
  | ".hpp" => some ("cpp", "function_definition")
  | ".h" => some ("cpp", "function_definition")
  | ".go" => some ("go", "function_declaration")
  | _ => none

/-- Collaborator results for one source file: the `os.ReadFile` outcome
and the external tree-sitter parse outcome for its bytes. -/
structure SrcFile where
  readRes : Except String (List Char)
  parseRes : Except String STree

/-- The file tree the walk visits. A directory carries an optional
read-directory error (the condition under which `fs.WalkDir` reports a
traversal error for that entry); entries are listed in the lexical order
`fs.WalkDir` guarantees. -/
inductive FsTree where
  | file (name : String) (f : SrcFile)
  | dir (name : String) (readErr : Option String) (entries : List FsTree)

/-- The base name of an entry, `d.Name()`. -/
def FsTree.name : FsTree → String
  | .file n _ => n
  | .dir n _ _ => n

/-- `filepath.Join(p, n)` for the clean names used here; joining onto
`"."` yields the bare name, as in Go. -/
def pathJoin (p n : String) : String :=
  if p = "." then n else p ++ "/" ++ n

/-- The file branch of `walkFn` (src/cmd/review.go:150): unregistered
extension, unreadable file, parse failure and zero chunks all skip the
file with no error; otherwise the configured endpoint is parsed
(`url.Parse(viper.GetString("OllamaHost"))`, a per-file step whose failure
aborts the walk) and every chunk is reviewed in order. -/
def walkFile (env : RunEnv) (path : String) (f : SrcFile) :
    Except String (List ReportSection) :=
  match langConfig (fileExt path) with
  | none => .ok []
  | some cfg =>
    match f.readRes with
    | .error _ => .ok []
    | .ok src =>
      match extractFunctions src f.parseRes cfg.2 with
      | .error _ => .ok []
      | .ok chunks =>
        if chunks.length = 0 then .ok []
        else
          match env.hostParse with
          | .error e => .error ("parse OLLAMA_HOST: " ++ e)
          | .ok _ => .ok (fileSections env path (trimDot (fileExt path)) chunks)

mutual
/-- `filepath.WalkDir` combined with `walkFn` (src/cmd/review.go:139):
visiting a directory whose base name is in the exclusion set at a path
other than the literal `"."` (the hardcoded `rootDir`) returns
`fs.SkipDir`, so its subtree contributes nothing; a directory read error
is handed to `walkFn`, which returns it, aborting the walk; otherwise the
entries are walked in order and their sections concatenated. -/
def walkFS (env : RunEnv) (path : String) : FsTree → Except String (List ReportSection)
  | .file _ f => walkFile env path f
  | .dir n readErr entries =>
    if n ∈ env.excl ∧ path ≠ "." then .ok []
    else
      match readErr with
      | some e => .error e
      | none => walkList env path entries

/-- Walking the ordered entries of a directory: the first error aborts;
otherwise section lists are accumulated in visit order. -/
def walkList (env : RunEnv) (path : String) : List FsTree → Except String (List ReportSection)
  | [] => .ok []
  | x :: xs =>
    match walkFS env (pathJoin path x.name) x with
    | .error e => .error e
    | .ok s =>
      match walkList env path xs with
      | .error e => .error e
      | .ok rest => .ok (s ++ rest)
end

/-- The fixed document title `"# Code Review Report\n\n"`. -/
def titleText : List Char := "# Code Review Report\n\n".toList

/-- The written document: title concatenated with every accumulated
section in accumulation order (`strings.Join(report, "")`). -/
def reportDoc (rep : List ReportSection) : List Char :=
  titleText ++ (rep.map renderSection).join

/-- Observable outcome of one `Review` run: the file writes performed
(path and full content; `os.WriteFile` overwrites) and the returned
error value. -/
structure RunResult where
  writes : List (String × List Char)
  result : Except String Unit

/-- `Review` (src/cmd/review.go:129): walks `repoRoot`; a walk error is
returned with no write; otherwise the report document is written to
`outFile` in a single `os.WriteFile`, whose own failure is wrapped as
`write report: ...`. -/
def Review (env : RunEnv) (repoRoot outFile : String) (fsRoot : FsTree) : RunResult :=
  match walkFS env repoRoot fsRoot with
  | .error e => ⟨[], .error e⟩
  | .ok rep =>
    match env.writeRes with
    | .error e => ⟨[(outFile, reportDoc rep)], .error ("write report: " ++ e)⟩
    | .ok _ => ⟨[(outFile, reportDoc rep)], .ok ()⟩


/-! ## Concrete fixtures used by the closed instances -/

/-- A two-function python-like parse tree. -/
def pyTree : STree :=
  .node "module" 0 26
    [.node "function_definition" 0 12 [], .node "function_definition" 12 24 []]

/-- Matching 26-character source text. -/
def pySrc : List Char := "def f(): AA\ndef g(): BB\nxx".toList

/-- A readable, parseable source file built from the fixtures. -/
def fileA : SrcFile := ⟨.ok pySrc, .ok pyTree⟩

/-- A guideline template with a single code field between double braces. -/
def tmplChars : List Char :=
  "Review this ".toList ++ [lbrace, lbrace] ++ ".code".toList ++ [rbrace, rbrace]
    ++ " thanks".toList

/-- Collaborators that always succeed. -/
def envAllOk : RunEnv :=
  { excl := ["vendor"]
    hostParse := .ok ()
    tmplRead := fun _ _ => .ok tmplChars
    chat := fun _ _ pr => .done [pr]
    writeRes := .ok () }

/-- Same collaborators, but the chat call for chunk index 0 fails. -/
def envFail0 : RunEnv :=
  { envAllOk with chat := fun _ i pr => if i = 0 then .fail [pr] "boom" else .done [pr] }

/-- Same collaborators, but the chat call for chunk index 1 fails. -/
def envFail1 : RunEnv :=
  { envAllOk with chat := fun _ i pr => if i = 1 then .fail [pr] "boom" else .done [pr] }

/-- All-succeeding collaborators with `sub` in the exclusion set. -/
def envExclSub : RunEnv := { envAllOk with excl := ["sub"] }

/-- All-succeeding collaborators with an empty exclusion set. -/
def envNoExcl : RunEnv := { envAllOk with excl := [] }

/-- All-succeeding collaborators except that the configured endpoint does
not parse. -/
def envBadHost : RunEnv := { envAllOk with hostParse := .error "bad scheme" }

/-- Inner function node nested in the body of an outer one. -/
def nestD : STree := .node "function_definition" 9 20 []

/-- Outer function node containing `nestD`. -/
def nestM : STree := .node "function_definition" 0 21 [nestD]

/-- Root with the nested pair beneath it. -/
def nestTr : STree := .node "module" 0 21 [nestM]

/-- 21-character source for the nested fixture. -/
def nestSrc : List Char := "def o(): def i(): y;z".toList

/-! ## Structural lemmas about the extractor traversal -/

/-- Structural induction principle for `STree` giving the hypothesis for
every member of the children list. -/
theorem STree.ind (P : STree → Prop)
    (h : ∀ t s e cs, (∀ c ∈ cs, P c) → P (.node t s e cs)) :
    (tr : STree) → P tr
  | .node t s e cs => h t s e cs (fun c _ => STree.ind P h c)

theorem wfTree_node {t : String} {s e : Nat} {cs : List STree} :
    wfTree (.node t s e cs) = true ↔
      s ≤ e ∧ (∀ c ∈ cs, s ≤ c.startB ∧ c.endB ≤ e)
        ∧ sibOk cs = true ∧ wfList cs = true := by
  simp [wfTree, List.all_eq_true, Bool.and_eq_true, decide_eq_true_eq, and_assoc]

theorem wfList_mem {cs : List STree} {c : STree}
    (h : wfList cs = true) (hc : c ∈ cs) : wfTree c = true := by
  induction cs with
  | nil => cases hc
  | cons a rest ih =>
    simp only [wfList, Bool.and_eq_true] at h
    rcases hc with _ | hc
    · exact h.1
    · exact ih h.2 (by assumption)

theorem wf_start_le_end {c : STree} (h : wfTree c = true) :
    c.startB ≤ c.endB := by
  cases c with
  | node t s e cs => exact (wfTree_node.mp h).1

theorem mem_walkKids {nt : String} {cs : List STree} {p : Nat × Nat} :
    p ∈ walkKids nt cs ↔ ∃ c ∈ cs, p ∈ walkNode nt c := by
  induction cs with
  | nil => simp [walkKids]
  | cons a rest ih => simp [walkKids, ih]

theorem mem_walkNode {nt t : String} {s e : Nat} {cs : List STree} {p : Nat × Nat} :
    p ∈ walkNode nt (.node t s e cs) ↔
      (t = nt ∧ p = (s, e)) ∨ p ∈ walkKids nt cs := by
  by_cases h : t = nt <;> simp [walkNode, h]

/-- Every span collected inside a well-formed tree lies within that tree's
own span and is itself proper. -/
theorem walkNode_bounds {nt : String} (tr : STree) (hw : wfTree tr = true) :
    ∀ p ∈ walkNode nt tr, tr.startB ≤ p.1 ∧ p.1 ≤ p.2 ∧ p.2 ≤ tr.endB := by
  induction tr using STree.ind with
  | _ t s e cs ih =>
    intro p hp
    rcases mem_walkNode.mp hp with ⟨-, rfl⟩ | hp
    · exact ⟨le_refl _, (wfTree_node.mp hw).1, le_refl _⟩
    · rcases mem_walkKids.mp hp with ⟨c, hc, hpc⟩
      rcases wfTree_node.mp hw with ⟨-, hnest, -, hl⟩
      have hcw := wfList_mem hl hc
      have hb := ih c hc hcw p hpc
      rcases hnest c hc with ⟨h1, h2⟩
      exact ⟨le_trans h1 hb.1, hb.2.1, le_trans hb.2.2 h2⟩

theorem sibOk_tail {a : STree} {rest : List STree}
    (h : sibOk (a :: rest) = true) : sibOk rest = true := by
  cases rest with
  | nil => rfl
  | cons b r =>
    simp only [sibOk, Bool.and_eq_true] at h
    exact h.2

theorem sibOk_head {a : STree} {rest : List STree}
    (h : sibOk (a :: rest) = true)
    (hw : ∀ c ∈ rest, c.startB ≤ c.endB) :
    ∀ x ∈ rest, a.endB ≤ x.startB := by
  induction rest generalizing a with
  | nil => intro x hx; cases hx
  | cons b r ih =>
    have hab : a.endB ≤ b.startB := by
      simp only [sibOk, Bool.and_eq_true, decide_eq_true_eq] at h
      exact h.1
    intro x hx
    rcases hx with _ | hx
    · exact hab
    · have hbx := ih (sibOk_tail h) (fun c hc => hw c (by simp [hc])) x (by assumption)
      exact le_trans hab (le_trans (hw b (by simp)) hbx)

theorem sibOk_pairwise {cs : List STree}
    (h : sibOk cs = true) (hw : ∀ c ∈ cs, c.startB ≤ c.endB) :
    List.Pairwise (fun a b => a.endB ≤ b.startB) cs := by
  induction cs with
  | nil => exact List.Pairwise.nil
  | cons a rest ih =>
    exact List.Pairwise.cons
      (sibOk_head h (fun c hc => hw c (by simp [hc])))
      (ih (sibOk_tail h) (fun c hc => hw c (by simp [hc])))

theorem walkKids_pairwise {nt : String} {cs : List STree}
    (hwf : ∀ c ∈ cs, wfTree c = true)
    (hin : ∀ c ∈ cs, List.Pairwise (fun (a b : Nat × Nat) => a.1 ≤ b.1) (walkNode nt c))
    (hsib : List.Pairwise (fun a b => a.endB ≤ b.startB) cs) :
    List.Pairwise (fun (a b : Nat × Nat) => a.1 ≤ b.1) (walkKids nt cs) := by
  induction cs with
  | nil => simp [walkKids]
  | cons c rest ih =>
    rw [walkKids, List.pairwise_append]
    refine ⟨hin c (by simp), ih (fun x hx => hwf x (by simp [hx]))
      (fun x hx => hin x (by simp [hx])) (List.Pairwise.sublist (by simp) hsib), ?_⟩
    intro p hp q hq
    rcases mem_walkKids.mp hq with ⟨d, hd, hqd⟩
    have hpb := walkNode_bounds c (hwf c (by simp)) p hp
    have hqb := walkNode_bounds d (hwf d (by simp [hd])) q hqd
    have hcd : c.endB ≤ d.startB := (List.pairwise_cons.mp hsib).1 d hd
    exact le_trans hpb.2.1 (le_trans hpb.2.2 (le_trans hcd hqb.1))

/-- In a well-formed tree, the spans are collected with non-decreasing
start offsets: pre-order visits matched nodes in left-to-right source
order. -/
theorem walkNode_sorted {nt : String} (tr : STree) (hw : wfTree tr = true) :
    List.Pairwise (fun (a b : Nat × Nat) => a.1 ≤ b.1) (walkNode nt tr) := by
  induction tr using STree.ind with
  | _ t s e cs ih =>
    rcases wfTree_node.mp hw with ⟨-, hnest, hsib, hl⟩
    rw [walkNode, List.pairwise_append]
    refine ⟨?_, ?_, ?_⟩
    · split <;> simp
    · exact walkKids_pairwise (fun c hc => wfList_mem hl hc)
        (fun c hc => ih c hc (wfList_mem hl hc))
        (sibOk_pairwise hsib (fun c hc => wf_start_le_end (wfList_mem hl hc)))
    · intro p hp q hq
      have hps : p = (s, e) := by
        revert hp; split <;> simp_all
      rcases mem_walkKids.mp hq with ⟨c, hc, hqc⟩
      have hqb := walkNode_bounds c (wfList_mem hl hc) q hqc
      exact hps ▸ le_trans (hnest c hc).1 hqb.1

theorem desc_wf {a d : STree} (h : Desc d a) :
    wfTree a = true → wfTree d = true ∧ a.startB ≤ d.startB ∧ d.endB ≤ a.endB := by
  induction h with
  | child hc =>
    intro hw
    rcases wfTree_node.mp hw with ⟨-, hnest, -, hl⟩
    exact ⟨wfList_mem hl hc, (hnest _ hc).1, (hnest _ hc).2⟩
  | step hc hd ih =>
    intro hw
    rcases wfTree_node.mp hw with ⟨-, hnest, -, hl⟩
    rcases ih (wfList_mem hl hc) with ⟨hdw, h1, h2⟩
    exact ⟨hdw, le_trans (hnest _ hc).1 h1, le_trans h2 (hnest _ hc).2⟩

theorem walkKids_infix_of_mem {nt : String} {cs : List STree} {c : STree}
    (hc : c ∈ cs) : walkNode nt c <:+: walkKids nt cs := by
  induction cs with
  | nil => cases hc
  | cons a rest ih =>
    rcases hc with _ | hc
    · exact ⟨[], walkKids nt rest, by simp [walkKids]⟩
    · rcases ih (by assumption) with ⟨pre, post, heq⟩
      exact ⟨walkNode nt a ++ pre, post, by simp [walkKids, ← heq]⟩

theorem walkKids_infix_node {nt t : String} {s e : Nat} {cs : List STree} :
    walkKids nt cs <:+: walkNode nt (.node t s e cs) :=
  ⟨if t = nt then [(s, e)] else [], [], by simp [walkNode]⟩

/-- The pre-order listing of a subtree is a contiguous segment of the
pre-order listing of the whole tree. -/
theorem desc_walk_within {nt : String} {m tr : STree} (h : Desc m tr) :
    walkNode nt m <:+: walkNode nt tr := by
  induction h with
  | child hc => exact (walkKids_infix_of_mem hc).trans walkKids_infix_node
  | step hc hd ih => exact ih.trans ((walkKids_infix_of_mem hc).trans walkKids_infix_node)

/-- A span nested inside another cuts a contiguous piece of the text the
outer span cuts. -/
theorem chunkOf_within {src : List Char} {ms me ds de : Nat}
    (h1 : ms ≤ ds) (h2 : de ≤ me) :
    chunkOf src (ds, de) <:+: chunkOf src (ms, me) := by
  have hA : (chunkOf src (ms, me)).drop (ds - ms) = (src.drop ds).take (me - ds) := by
    unfold chunkOf
    rw [List.drop_take, List.drop_drop]
    congr 1
    · omega
    · congr 1
      omega
  have hB : chunkOf src (ds, de) = ((chunkOf src (ms, me)).drop (ds - ms)).take (de - ds) := by
    rw [hA]
    unfold chunkOf
    rw [List.take_take]
    congr 1
    omega
  rw [hB]
  exact ((List.take_prefix _ _).isInfix).trans ((List.drop_suffix _ _).isInfix)

/-! ## Characterising the chunk loop -/

/-- Every emitted section comes from a chunk at a definite loop position
whose review succeeded, and is labelled with that position. -/
theorem sectionsFrom_sound {env : RunEnv} {path langTag : String} {total i0 : Nat}
    {rest : List (List Char)} {s : ReportSection}
    (hs : s ∈ sectionsFrom env path langTag total i0 rest) :
    ∃ k ch res, rest[k]? = some ch ∧
      reviewChunk (env.tmplRead path (i0 + k)) (env.chat path (i0 + k)) langTag ch
        = .ok res ∧
      s = ⟨path, i0 + k + 1, total, res⟩ := by
  induction rest generalizing i0 with
  | nil => simp [sectionsFrom] at hs
  | cons ch0 rest ih =>
    rw [sectionsFrom] at hs
    revert hs
    cases hrv : reviewChunk (env.tmplRead path i0) (env.chat path i0) langTag ch0 with
    | ok res0 =>
      intro hs
      rcases List.mem_cons.mp hs with rfl | hs2
      · exact ⟨0, ch0, res0, by simp, by simpa using hrv, by simp⟩
      · obtain ⟨k, ch, res, hk, hr, hsec⟩ := ih hs2
        refine ⟨k + 1, ch, res, by simpa using hk, ?_, ?_⟩
        · rw [show i0 + (k + 1) = i0 + 1 + k by omega]
          exact hr
        · rw [show i0 + (k + 1) + 1 = i0 + 1 + k + 1 by omega]
          exact hsec
    | error e0 =>
      intro hs
      obtain ⟨k, ch, res, hk, hr, hsec⟩ := ih hs
      refine ⟨k + 1, ch, res, by simpa using hk, ?_, ?_⟩
      · rw [show i0 + (k + 1) = i0 + 1 + k by omega]
        exact hr
      · rw [show i0 + (k + 1) + 1 = i0 + 1 + k + 1 by omega]
        exact hsec

/-- Every chunk whose review succeeds contributes its section, whatever
happens at the other chunks. -/
theorem sectionsFrom_complete {env : RunEnv} {path langTag : String}
    {total i0 k : Nat} {rest : List (List Char)} {ch res}
    (hk : rest[k]? = some ch)
    (hr : reviewChunk (env.tmplRead path (i0 + k)) (env.chat path (i0 + k)) langTag ch
        = .ok res) :
    (⟨path, i0 + k + 1, total, res⟩ : ReportSection)
      ∈ sectionsFrom env path langTag total i0 rest := by
  induction rest generalizing i0 k with
  | nil => simp at hk
  | cons ch0 rest ih =>
    cases k with
    | zero =>
      simp only [List.getElem?_cons_zero, Option.some.injEq] at hk
      subst hk
      simp only [Nat.add_zero] at hr
      rw [sectionsFrom, hr]
      simp
    | succ k =>
      simp only [List.getElem?_cons_succ] at hk
      have hr2 : reviewChunk (env.tmplRead path (i0 + 1 + k)) (env.chat path (i0 + 1 + k))
          langTag ch = .ok res := by
        rw [show i0 + 1 + k = i0 + (k + 1) by omega]
        exact hr
      have hmem := @ih (i0 + 1) k hk hr2
      rw [show i0 + 1 + k + 1 = i0 + (k + 1) + 1 by omega] at hmem
      rw [sectionsFrom]
      cases hrv : reviewChunk (env.tmplRead path i0) (env.chat path i0) langTag ch0 with
      | ok res0 => exact List.mem_cons_of_mem _ hmem
      | error e0 => exact hmem

/-- When every chunk review succeeds the loop emits one section per chunk,
labelled consecutively from the start counter. -/
theorem sectionsFrom_all_ok {env : RunEnv} {path langTag : String}
    {total i0 : Nat} {rest : List (List Char)}
    (h : ∀ k ch, rest[k]? = some ch →
      ∃ res, reviewChunk (env.tmplRead path (i0 + k)) (env.chat path (i0 + k)) langTag ch
        = .ok res) :
    (sectionsFrom env path langTag total i0 rest).map ReportSection.idx
        = List.range' (i0 + 1) rest.length
      ∧ ∀ s ∈ sectionsFrom env path langTag total i0 rest, s.total = total := by
  induction rest generalizing i0 with
  | nil => simp [sectionsFrom]
  | cons ch0 rest ih =>
    obtain ⟨res0, hr0⟩ := h 0 ch0 (by simp)
    simp only [Nat.add_zero] at hr0
    have ihr := @ih (i0 + 1) (fun k ch hk => by
      obtain ⟨res, hr⟩ := h (k + 1) ch (by simpa using hk)
      refine ⟨res, ?_⟩
      rw [show i0 + 1 + k = i0 + (k + 1) by omega]
      exact hr)
    rw [sectionsFrom, hr0]
    refine ⟨?_, ?_⟩
    · simp only [List.map_cons, ihr.1, List.length_cons, List.range'_succ]
    · intro s hs
      rcases List.mem_cons.mp hs with rfl | hs2
      · rfl
      · exact ihr.2 s hs2

/-! ## Walk-level helpers -/

theorem walkList_cons_err {env : RunEnv} {p : String} {x : FsTree}
    {xs : List FsTree} {e : String}
    (h : walkFS env (pathJoin p x.name) x = .error e) :
    walkList env p (x :: xs) = .error e := by
  rw [walkList, h]

theorem walkList_cons_ok {env : RunEnv} {p : String} {x : FsTree}
    {xs : List FsTree} {s : List ReportSection}
    (h : walkFS env (pathJoin p x.name) x = .ok s) :
    walkList env p (x :: xs) =
      match walkList env p xs with
      | .error e => .error e
      | .ok rest => .ok (s ++ rest) := by
  rw [walkList, h]

theorem walkFile_unregistered {env : RunEnv} {path : String} {f : SrcFile}
    (h : langConfig (fileExt path) = none) : walkFile env path f = .ok [] := by
  simp [walkFile, h]

theorem walkFile_read_err {env : RunEnv} {path : String} {f : SrcFile} {m : String}
    (h : f.readRes = .error m) : walkFile env path f = .ok [] := by
  unfold walkFile
  cases hcfg : langConfig (fileExt path) with
  | none => rfl
  | some cfg => rw [h]

theorem walkFile_parse_err {env : RunEnv} {path : String} {f : SrcFile} {m : String}
    (h : f.parseRes = .error m) : walkFile env path f = .ok [] := by
  unfold walkFile
  cases hcfg : langConfig (fileExt path) with
  | none => rfl
  | some cfg =>
    cases hr : f.readRes with
    | error e => rfl
    | ok src =>
      rw [h]
      simp [extractFunctions]

theorem walkFile_zero {env : RunEnv} {path : String} {f : SrcFile}
    {cfg : String × String} {src : List Char} {tree : STree}
    (hcfg : langConfig (fileExt path) = some cfg)
    (hr : f.readRes = .ok src) (hp : f.parseRes = .ok tree)
    (hz : walkNode cfg.2 tree = []) : walkFile env path f = .ok [] := by
  unfold walkFile
  rw [hcfg, hr, hp]
  simp [extractFunctions, hz]

theorem walkFile_host_err {env : RunEnv} {path : String} {f : SrcFile}
    {cfg : String × String} {src : List Char} {tree : STree} {e : String}
    (hcfg : langConfig (fileExt path) = some cfg)
    (hr : f.readRes = .ok src) (hp : f.parseRes = .ok tree)
    (hne : walkNode cfg.2 tree ≠ [])
    (hhost : env.hostParse = .error e) :
    walkFile env path f = .error ("parse OLLAMA_HOST: " ++ e) := by
  unfold walkFile
  rw [hcfg, hr, hp]
  simp only [extractFunctions]
  rw [if_neg (by simpa using hne), hhost]

theorem walkFile_run {env : RunEnv} {path : String} {f : SrcFile}
    {cfg : String × String} {src : List Char} {tree : STree}
    (hcfg : langConfig (fileExt path) = some cfg)
    (hr : f.readRes = .ok src) (hp : f.parseRes = .ok tree)
    (hne : walkNode cfg.2 tree ≠ [])
    (hhost : env.hostParse = .ok ()) :
    walkFile env path f
      = .ok (fileSections env path (trimDot (fileExt path))
          ((walkNode cfg.2 tree).map (chunkOf src))) := by
  unfold walkFile
  rw [hcfg, hr, hp]
  simp only [extractFunctions]
  rw [if_neg (by simpa using hne), hhost]

theorem walkFile_no_error {env : RunEnv} (hhost : env.hostParse = .ok ())
    (path : String) (f : SrcFile) : ∃ secs, walkFile env path f = .ok secs := by
  unfold walkFile
  cases hcfg : langConfig (fileExt path) with
  | none => exact ⟨[], rfl⟩
  | some cfg =>
    cases hr : f.readRes with
    | error e => exact ⟨[], rfl⟩
    | ok src =>
      cases hp : f.parseRes with
      | error e => exact ⟨[], by simp [extractFunctions]⟩
      | ok tree =>
        simp only [extractFunctions]
        by_cases hz : ((walkNode cfg.2 tree).map (chunkOf src)).length = 0
        · rw [if_pos hz]
          exact ⟨[], rfl⟩
        · rw [if_neg hz, hhost]
          exact ⟨_, rfl⟩

theorem Review_walk_err {env : RunEnv} {root out : String} {fs : FsTree} {e : String}
    (h : walkFS env root fs = .error e) :
    Review env root out fs = ⟨[], .error e⟩ := by
  unfold Review
  rw [h]

theorem Review_walk_ok {env : RunEnv} {root out : String} {fs : FsTree}
    {rep : List ReportSection} (h : walkFS env root fs = .ok rep) :
    (Review env root out fs).writes = [(out, reportDoc rep)] := by
  unfold Review
  rw [h]
  cases env.writeRes <;> rfl

/-- A successful review call pins down a successful prompt build and a
completed chat stream whose fragments, joined, form the result. -/
theorem reviewChunk_ok_done {t : Except String (List Char)}
    {cf : List Char → ChatOutcome} {lt : String} {code res : List Char}
    (h : reviewChunk t cf lt code = .ok res) :
    ∃ pr frags, buildPrompt t lt code = .ok pr ∧ cf pr = .done frags
      ∧ res = frags.join := by
  unfold reviewChunk at h
  cases hb : buildPrompt t lt code with
  | error e => simp [hb] at h
  | ok pr =>
    simp only [hb] at h
    cases hc : cf pr with
    | done frags =>
      simp only [hc, Except.ok.injEq] at h
      exact ⟨pr, frags, rfl, hc, h.symm⟩
    | fail r m => simp [hc] at h

theorem walkNode_matched {nt : String} {m : STree} (h : m.typ = nt) :
    walkNode nt m = (m.startB, m.endB) :: walkKids nt m.children := by
  cases m with
  | node t s e cs =>
    simp only [STree.typ] at h
    subst h
    simp [walkNode, STree.startB, STree.endB, STree.children]

theorem desc_walk_kids_within {nt : String} {m d : STree} (h : Desc d m) :
    walkNode nt d <:+: walkKids nt m.children := by
  cases h with
  | child hc => exact walkKids_infix_of_mem hc
  | step hc hd => exact (desc_walk_within hd).trans (walkKids_infix_of_mem hc)

theorem pathJoin_ne_dot {p n : String} (hn : n ≠ ".") : pathJoin p n ≠ "." := by
  unfold pathJoin
  split
  · exact hn
  · intro h
    have h2 := congrArg String.toList h
    simp only [String.toList, String.data_append] at h2
    cases hp : p.data with
    | nil => rw [hp] at h2; simp at h2
    | cons c rest => rw [hp] at h2; simp at h2

/-! ## Claims -/

/-- C1, counterexample: for a file producing two chunks whose first review
call fails, the report sections generated carry index 2 only — not
indices exactly 1..2 with no gaps as the claim states. -/
theorem chunk_index_gap_cex :
    ((walkNode "function_definition" pyTree).map (chunkOf pySrc)).length = 2
    ∧ (fileSections envFail0 "a.py" "py"
        ((walkNode "function_definition" pyTree).map (chunkOf pySrc))).map
          ReportSection.idx = [2] :=
  ⟨rfl, rfl⟩

/-- C1 (amended): chunks are numbered 1..N by position in the extractor
traversal and every section is labelled with its chunk position over N;
when every chunk review succeeds the sections carry exactly the indices
1..N with no gaps; and the traversal collects matched spans in
non-decreasing start-offset order (depth-first pre-order over named
nodes equals left-to-right source order). -/
theorem chunk_indexing
    (env : RunEnv) (path langTag : String) (src : List Char) (tree : STree)
    (nt : String) (hwf : wfTree tree = true)
    (hok : ∀ k ch, ((walkNode nt tree).map (chunkOf src))[k]? = some ch →
      ∃ res, reviewChunk (env.tmplRead path k) (env.chat path k) langTag ch = .ok res) :
    ((fileSections env path langTag ((walkNode nt tree).map (chunkOf src))).map
        ReportSection.idx
      = List.range' 1 ((walkNode nt tree).map (chunkOf src)).length)
    ∧ (∀ s ∈ fileSections env path langTag ((walkNode nt tree).map (chunkOf src)),
        s.total = ((walkNode nt tree).map (chunkOf src)).length)
    ∧ List.Pairwise (fun (a b : Nat × Nat) => a.1 ≤ b.1) (walkNode nt tree) := by
  have hall := @sectionsFrom_all_ok env path langTag
    ((walkNode nt tree).map (chunkOf src)).length 0
    ((walkNode nt tree).map (chunkOf src))
    (by intro k ch hk; simpa using hok k ch hk)
  exact ⟨by simpa [fileSections] using hall.1,
    by simpa [fileSections] using hall.2,
    walkNode_sorted tree hwf⟩

/-- C1 witness: the amended claim evaluated on the two-function fixture
with all-succeeding collaborators. -/
theorem chunk_indexing_witness :
    wfTree pyTree = true
    ∧ (fileSections envAllOk "a.py" "py"
        ((walkNode "function_definition" pyTree).map (chunkOf pySrc))).map
          ReportSection.idx
      = List.range' 1 ((walkNode "function_definition" pyTree).map (chunkOf pySrc)).length :=
  ⟨by decide,
    (chunk_indexing envAllOk "a.py" "py" pySrc pyTree "function_definition" (by decide)
      (fun k ch hk => ⟨_, rfl⟩)).1⟩

/-- C2: a failed chat call for chunk i returns no text (the partial
fragment accumulation is dropped and cannot influence the result), the
chunk contributes no section, every other chunk still contributes its own
section, and file processing never aborts on chat failures (the walk can
only fail at the endpoint parse). -/
theorem chat_failure_isolated
    (env : RunEnv) (path langTag : String) (chunks : List (List Char)) (i : Nat)
    (hfail : ∀ pr, (env.chat path i pr).isFail = true) :
    (∀ s ∈ fileSections env path langTag chunks, s.idx ≠ i + 1)
    ∧ (∀ tmplRead code received received2 m,
        reviewChunk tmplRead (fun _ => ChatOutcome.fail received m) langTag code
          = reviewChunk tmplRead (fun _ => ChatOutcome.fail received2 m) langTag code)
    ∧ (∀ tmplRead code received m res,
        reviewChunk tmplRead (fun _ => ChatOutcome.fail received m) langTag code
          ≠ .ok res)
    ∧ (∀ j ch res, chunks[j]? = some ch →
        reviewChunk (env.tmplRead path j) (env.chat path j) langTag ch = .ok res →
        (⟨path, j + 1, chunks.length, res⟩ : ReportSection)
          ∈ fileSections env path langTag chunks)
    ∧ (env.hostParse = .ok () → ∀ p f, ∃ secs, walkFile env p f = .ok secs) := by
  refine ⟨?_, ?_, ?_, ?_, ?_⟩
  · intro s hs hidx
    simp only [fileSections] at hs
    obtain ⟨k, ch, res, hk, hr, hsec⟩ := sectionsFrom_sound hs
    subst hsec
    simp only at hidx
    have hk_eq : k = i := by omega
    subst hk_eq
    obtain ⟨pr, frags, hb, hc, -⟩ :=
      reviewChunk_ok_done (show reviewChunk (env.tmplRead path k) (env.chat path k)
        langTag ch = .ok res by simpa using hr)
    have h2 := hfail pr
    rw [hc] at h2
    simp [ChatOutcome.isFail] at h2
  · intro t code r r2 m
    unfold reviewChunk
    cases buildPrompt t langTag code <;> rfl
  · intro t code r m res
    unfold reviewChunk
    cases buildPrompt t langTag code <;> simp
  · intro j ch res hk hr
    have hdone := @sectionsFrom_complete env path langTag chunks.length 0 j chunks ch res
      hk (by simpa using hr)
    simpa [fileSections] using hdone
  · intro hhost p f
    exact walkFile_no_error hhost p f

/-- C2 witness: with the chat call for chunk index 1 failing, chunk 0
still contributes its section on the two-function fixture. -/
theorem chat_failure_isolated_witness :
    (⟨"a.py", 1, 2, "Review this def f(): AA\n thanks".toList⟩ : ReportSection)
      ∈ fileSections envFail1 "a.py" "py"
          ((walkNode "function_definition" pyTree).map (chunkOf pySrc)) :=
  (chat_failure_isolated envFail1 "a.py" "py"
      ((walkNode "function_definition" pyTree).map (chunkOf pySrc)) 1
      (fun _ => rfl)).2.2.2.1 0 (chunkOf pySrc (0, 12))
      ("Review this def f(): AA\n thanks".toList) rfl rfl

/-- C3, counterexample: a walk rooted at path "sub" with "sub" in the
exclusion set skips the root itself (the exemption compares against the
literal "." only), so a reviewable file beneath the root produces nothing
and only the bare title is written; with the exclusion removed the same
tree yields two sections. -/
theorem root_excluded_cex :
    walkFS envExclSub "sub" (.dir "sub" none [.file "a.py" fileA]) = .ok []
    ∧ Except.map List.length
        (walkFS envNoExcl "sub" (.dir "sub" none [.file "a.py" fileA])) = .ok 2
    ∧ (Review envExclSub "sub" "out.md" (.dir "sub" none [.file "a.py" fileA])).writes
        = [("out.md", titleText)] :=
  ⟨rfl, rfl, rfl⟩

/-- C3 (amended): a visited directory whose base name is in the exclusion
set is skipped together with its whole subtree whenever its visited path
differs from the literal "." (the hardcoded rootDir) — in particular a
walk root passed under any other path is itself subject to name
exclusion; a directory visited at path "." ignores the name match; and a
skipped entry leaves the processing of its sibling entries unchanged. -/
theorem excluded_dir_skipped
    (env : RunEnv) (path n : String) (re : Option String) (es : List FsTree)
    (hn : n ∈ env.excl) (hp : path ≠ ".") (hnd : n ≠ ".") :
    walkFS env path (.dir n re es) = .ok []
    ∧ (walkFS env "." (.dir n re es)
        = match re with
          | some e => .error e
          | none => walkList env "." es)
    ∧ (∀ p xs, walkList env p (FsTree.dir n re es :: xs) = walkList env p xs) := by
  refine ⟨?_, ?_, ?_⟩
  · rw [walkFS.eq_def]
    simp [hn, hp]
  · cases re with
    | some e =>
      rw [walkFS.eq_def]
      simp
    | none =>
      rw [walkFS.eq_def]
      simp
  · intro p xs
    have hskip : walkFS env (pathJoin p n) (.dir n re es) = .ok [] := by
      rw [walkFS.eq_def]
      simp [hn, pathJoin_ne_dot hnd]
    rw [@walkList_cons_ok env p (FsTree.dir n re es) xs [] hskip]
    cases h2 : walkList env p xs <;> simp

/-- C3 witness: the amended claim at a concrete excluded directory away
from the root path. -/
theorem excluded_dir_skipped_witness :
    walkFS envExclSub "x/sub" (.dir "sub" none [.file "a.py" fileA]) = .ok [] :=
  (excluded_dir_skipped envExclSub "x/sub" "sub" none [.file "a.py" fileA]
      (by decide) (by decide) (by decide)).1

/-- C4: traversal continues into the children of a matched node; a
function-typed node strictly inside a matched function-typed node is
collected as its own later chunk, and the outer chunk text contains the
inner chunk text as a contiguous segment (overlapping chunks). -/
theorem nested_function_chunks
    (nt : String) (src : List Char) (tr m d : STree)
    (hwf : wfTree tr = true) (hm : m = tr ∨ Desc m tr) (hmt : m.typ = nt)
    (hd : Desc d m) (hdt : d.typ = nt) :
    (∃ pre rest post,
        walkNode nt tr = pre ++ ((m.startB, m.endB) :: rest) ++ post
          ∧ (d.startB, d.endB) ∈ rest)
    ∧ chunkOf src (d.startB, d.endB) <:+: chunkOf src (m.startB, m.endB) := by
  have hwm : wfTree m = true := by
    rcases hm with rfl | hdm
    · exact hwf
    · exact ((desc_wf hdm) hwf).1
  have hbounds := (desc_wf hd) hwm
  constructor
  · have hseg : walkNode nt m <:+: walkNode nt tr := by
      rcases hm with rfl | hdm
      · exact List.infix_refl _
      · exact desc_walk_within hdm
    obtain ⟨pre, post, heq⟩ := hseg
    refine ⟨pre, walkKids nt m.children, post, ?_, ?_⟩
    · rw [← heq, walkNode_matched hmt]
    · have hmem : (d.startB, d.endB) ∈ walkNode nt d := by
        rw [walkNode_matched hdt]
        exact List.mem_cons_self _ _
      exact (desc_walk_kids_within hd).subset hmem
  · exact chunkOf_within hbounds.2.1 hbounds.2.2

/-- C4 witness: the nested fixture, where the outer function spans bytes
0..21 and the inner one bytes 9..20. -/
theorem nested_function_chunks_witness :
    chunkOf nestSrc (nestD.startB, nestD.endB)
      <:+: chunkOf nestSrc (nestM.startB, nestM.endB) :=
  (nested_function_chunks "function_definition" nestSrc nestTr nestM nestD
      (by decide) (Or.inr (Desc.child (List.mem_singleton.mpr rfl)))
      rfl (Desc.child (List.mem_singleton.mpr rfl)) rfl).2

/-- C5: a directory read error reported to the walk callback aborts the
whole run — the error propagates through the entry list and out of
`Review`, and no write is performed — whereas an unreadable file or a
parse failure merely skips that file with no error. -/
theorem traversal_error_aborts
    (env : RunEnv) (path n e : String) (es : List FsTree)
    (hvisit : n ∈ env.excl → path = ".") :
    walkFS env path (.dir n (some e) es) = .error e
    ∧ (∀ root out fs e2, walkFS env root fs = .error e2 →
        Review env root out fs = ⟨[], .error e2⟩)
    ∧ (∀ p x xs e2, walkFS env (pathJoin p x.name) x = .error e2 →
        walkList env p (x :: xs) = .error e2)
    ∧ (∀ p f m, f.readRes = .error m → walkFile env p f = .ok [])
    ∧ (∀ p f m, f.parseRes = .error m → walkFile env p f = .ok []) := by
  refine ⟨?_, ?_, ?_, ?_, ?_⟩
  · rw [walkFS.eq_def]
    by_cases hn : n ∈ env.excl
    · simp [hvisit hn]
    · simp [hn]
  · intro root out fs e2 h
    exact Review_walk_err h
  · intro p x xs e2 h
    exact walkList_cons_err h
  · intro p f m h
    exact walkFile_read_err h
  · intro p f m h
    exact walkFile_parse_err h

/-- C5 witness: a directory with a read error at the root path aborts the
walk with that error. -/
theorem traversal_error_aborts_witness :
    walkFS envAllOk "." (.dir "d" (some "denied") []) = .error "denied" :=
  (traversal_error_aborts envAllOk "." "d" "denied" [] (fun _ => rfl)).1

/-- C6: whenever the walk succeeds, the run performs exactly one write to
the configured output path, whose content is the fixed title followed by
every accumulated section in order, each section being the file-path
heading with the chunk index over the file total, the review text, and a
horizontal-rule separator. -/
theorem report_document
    (env : RunEnv) (root out : String) (fs : FsTree) (rep : List ReportSection)
    (h : walkFS env root fs = .ok rep) :
    (Review env root out fs).writes
      = [(out, "# Code Review Report\n\n".toList
          ++ (rep.map (fun s =>
                ("## " ++ s.path ++ " (chunk " ++ toString s.idx ++ "/"
                    ++ toString s.total ++ ")\n\n").toList
                  ++ s.body ++ "\n\n---\n".toList)).join)] := by
  rw [Review_walk_ok h]
  rfl

/-- C6 witness: the document written for a run with no sections is the
bare title. -/
theorem report_document_witness :
    (Review envAllOk "." "out.md" (.dir "." none [])).writes
      = [("out.md", "# Code Review Report\n\n".toList
          ++ (([] : List ReportSection).map (fun s =>
                ("## " ++ s.path ++ " (chunk " ++ toString s.idx ++ "/"
                    ++ toString s.total ++ ")\n\n").toList
                  ++ s.body ++ "\n\n---\n".toList)).join)] :=
  report_document envAllOk "." "out.md" (.dir "." none []) [] rfl

/-- C7: a file with an unregistered extension is skipped silently, a file
whose extraction yields zero chunks is skipped silently, and a skipped or
processed entry leaves the processing of the remaining entries unchanged. -/
theorem file_skips_are_soft (env : RunEnv) (path : String) (f : SrcFile) :
    (langConfig (fileExt path) = none → walkFile env path f = .ok [])
    ∧ (∀ cfg src tree, langConfig (fileExt path) = some cfg →
        f.readRes = .ok src → f.parseRes = .ok tree → walkNode cfg.2 tree = [] →
        walkFile env path f = .ok [])
    ∧ (∀ p x xs s, walkFS env (pathJoin p x.name) x = .ok s →
        walkList env p (x :: xs)
          = match walkList env p xs with
            | .error e => .error e
            | .ok rest => .ok (s ++ rest)) := by
  refine ⟨?_, ?_, ?_⟩
  · intro h
    exact walkFile_unregistered h
  · intro cfg src tree hcfg hr hp hz
    exact walkFile_zero hcfg hr hp hz
  · intro p x xs s h
    exact walkList_cons_ok h

/-- C7 witness: a file with extension ".txt" is skipped silently. -/
theorem file_skips_are_soft_witness :
    walkFile envAllOk "b.txt" fileA = .ok [] :=
  (file_skips_are_soft envAllOk "b.txt" fileA).1 rfl

/-- The prompt builder can only fail through the template read or the
template parse, never through the substituted chunk text, so a failure
for one chunk text is a failure for every chunk text. -/
theorem buildPrompt_error_indep {t : Except String (List Char)} {lt : String}
    {code code2 : List Char} {e : String}
    (h : buildPrompt t lt code = .error e) :
    buildPrompt t lt code2 = .error e := by
  unfold buildPrompt at h ⊢
  cases t with
  | error m => exact h
  | ok tsrc =>
    simp only at h ⊢
    cases hp : parseTmpl tsrc with
    | error m =>
      rw [hp] at h
      exact h
    | ok toks =>
      rw [hp] at h
      simp at h

/-- C8: the prompt of chunk i is built from the template read performed
for that very call (reads at other chunks cannot influence it — no
caching), substitution inserts exactly the two fields lang and code, with
the chunk text and language tag inserted verbatim and any other field
rendering the missing-key value, a failing template load surfaces as a
wrapped parse error, and a prompt-build failure fails only that chunk:
it produces no section while every successfully reviewed chunk keeps its
own section. -/
theorem template_fresh_two_fields
    (env : RunEnv) (path langTag : String) (chunks : List (List Char)) (i : Nat) :
    (∀ tmpl2 : String → Nat → Except String (List Char),
      tmpl2 path i = env.tmplRead path i →
      ∀ ch, reviewChunk (tmpl2 path i) (env.chat path i) langTag ch
          = reviewChunk (env.tmplRead path i) (env.chat path i) langTag ch)
    ∧ (∀ toks lt code, Tok.fld "code".toList ∈ toks →
        code <:+: execTmpl toks lt code)
    ∧ (∀ toks lt code, Tok.fld "lang".toList ∈ toks →
        lt <:+: execTmpl toks lt code)
    ∧ (∀ n lt code, n ≠ "lang".toList → n ≠ "code".toList →
        execTok lt code (.fld n) = "<no value>".toList)
    ∧ (∀ m lt code, buildPrompt (.error m) lt code
        = .error ("parse template: " ++ m))
    ∧ (∀ ch0 e, buildPrompt (env.tmplRead path i) langTag ch0 = .error e →
        ∀ s ∈ fileSections env path langTag chunks, s.idx ≠ i + 1)
    ∧ (∀ j ch res, chunks[j]? = some ch →
        reviewChunk (env.tmplRead path j) (env.chat path j) langTag ch = .ok res →
        (⟨path, j + 1, chunks.length, res⟩ : ReportSection)
          ∈ fileSections env path langTag chunks) := by
  refine ⟨?_, ?_, ?_, ?_, ?_, ?_, ?_⟩
  · intro t2 h ch
    rw [h]
  · intro toks lt code hmem
    exact List.infix_of_mem_flatten (List.mem_map.mpr ⟨Tok.fld "code".toList, hmem,
      by simp only [execTok]; rw [if_neg (by decide)]; simp⟩)
  · intro toks lt code hmem
    exact List.infix_of_mem_flatten (List.mem_map.mpr ⟨Tok.fld "lang".toList, hmem,
      by simp [execTok]⟩)
  · intro n lt code h1 h2
    simp only [execTok]
    rw [if_neg h1, if_neg h2]
  · intro m lt code
    rfl
  · intro ch0 e hbuild s hs hidx
    simp only [fileSections] at hs
    obtain ⟨k, ch, res, hk, hr, hsec⟩ := sectionsFrom_sound hs
    subst hsec
    simp only at hidx
    have hk_eq : k = i := by omega
    subst hk_eq
    obtain ⟨pr, frags, hb, -, -⟩ :=
      reviewChunk_ok_done (show reviewChunk (env.tmplRead path k) (env.chat path k)
        langTag ch = .ok res by simpa using hr)
    rw [buildPrompt_error_indep hbuild] at hb
    cases hb
  · intro j ch res hk hr
    have hdone := @sectionsFrom_complete env path langTag chunks.length 0 j chunks ch res
      hk (by simpa using hr)
    simpa [fileSections] using hdone

/-- C8 witness: verbatim insertion of the chunk text through a template
holding one code field. -/
theorem template_fresh_two_fields_witness :
    "def x".toList
      <:+: execTmpl [Tok.lit "A ".toList, Tok.fld "code".toList]
            "py".toList "def x".toList :=
  (template_fresh_two_fields envAllOk "a.py" "py" [] 0).2.1
    [Tok.lit "A ".toList, Tok.fld "code".toList] "py".toList "def x".toList
    (by decide)

/-- C9, counterexample: with a malformed endpoint but no file producing
chunks (an empty repository), the run completes successfully and the
report is written — contrary to the claim, the malformed endpoint does
not stop such a run, because the endpoint is only parsed per reviewable
file. -/
theorem bad_endpoint_cex :
    (Review envBadHost "." "out.md" (.dir "." none [])).result = .ok ()
    ∧ (Review envBadHost "." "out.md" (.dir "." none [])).writes
        = [("out.md", titleText)] :=
  ⟨rfl, rfl⟩

/-- C9 (amended): the endpoint is parsed while processing each file that
yields at least one chunk; when it is malformed, any such file aborts the
walk with the wrapped parse error, the error surfaces from Review, and no
report is written; a run that never reaches such a file never parses the
endpoint and completes normally. -/
theorem bad_endpoint_fatal
    (env : RunEnv) (e : String) (hhost : env.hostParse = .error e) :
    (∀ path f cfg src tree, langConfig (fileExt path) = some cfg →
      f.readRes = .ok src → f.parseRes = .ok tree → walkNode cfg.2 tree ≠ [] →
      walkFile env path f = .error ("parse OLLAMA_HOST: " ++ e))
    ∧ (∀ root out fs e2, walkFS env root fs = .error e2 →
        Review env root out fs = ⟨[], .error e2⟩) := by
  refine ⟨?_, ?_⟩
  · intro path f cfg src tree hcfg hr hp hne
    exact walkFile_host_err hcfg hr hp hne hhost
  · intro root out fs e2 h
    exact Review_walk_err h

/-- C9 witness: a reviewable file under a malformed endpoint aborts with
the wrapped error. -/
theorem bad_endpoint_fatal_witness :
    walkFile envBadHost "a.py" fileA = .error "parse OLLAMA_HOST: bad scheme" :=
  (bad_endpoint_fatal envBadHost "bad scheme" rfl).1 "a.py" fileA
    ("python", "function_definition") pySrc pyTree rfl rfl rfl (by decide)

/-- C10: whenever the walk completes without error, exactly one write is
performed, to the output path, containing the full document; with zero
accumulated sections the document is the bare title. -/
theorem report_always_written
    (env : RunEnv) (root out : String) (fs : FsTree) (rep : List ReportSection)
    (h : walkFS env root fs = .ok rep) :
    (Review env root out fs).writes.length = 1
    ∧ (Review env root out fs).writes = [(out, reportDoc rep)]
    ∧ (rep = [] → (Review env root out fs).writes = [(out, titleText)]) := by
  have hw : (Review env root out fs).writes = [(out, reportDoc rep)] :=
    Review_walk_ok h
  refine ⟨by rw [hw]; rfl, hw, ?_⟩
  rintro rfl
  rw [hw]
  simp [reportDoc]

/-- C10 witness: the empty-walk run writes exactly the bare title once. -/
theorem report_always_written_witness :
    (Review envAllOk "." "o.md" (.dir "." none [])).writes = [("o.md", titleText)] :=
  (report_always_written envAllOk "." "o.md" (.dir "." none []) [] rfl).2.2 rfl
